import Mathlib

/-!
Verification of the feed-repository module (feeds.py) of the utils repository.

The filesystem is modelled as a finite tree of named entries (`Entry`); paths
are lists of name segments (each Python path string such as the feed root is
treated as one opaque segment, and `os.path.join` is list concatenation).
Python string comparison (code-point lexicographic) is modelled by `chLe` on
the characters; `str.isdigit` is modelled on ASCII digits, which covers every
string the module manipulates.  Python functions that can raise are embedded
in `Except String`; `add_feed_data_ver` returns the filesystem state reached
together with the outcome, so that states left behind by a failed call can be
reasoned about.
-/

namespace Feeds

/-- Code-point lexicographic order on character lists, as Python compares
strings. -/
def chLe : List Char → List Char → Bool
  | [], _ => true
  | _ :: _, [] => false
  | a :: as, b :: bs =>
    if a.toNat < b.toNat then true
    else if b.toNat < a.toNat then false
    else chLe as bs

/-- Python string `<=` (code-point lexicographic). -/
def strLe (a b : String) : Bool := chLe a.data b.data

/-- The order `strLe` as a proposition, for use with library sorting lemmas. -/
def strLeP (a b : String) : Prop := strLe a b = true

instance : DecidableRel strLeP := fun a b => decEq (strLe a b) true

instance : IsTotal String strLeP :=
  ⟨fun a b => by
    show chLe a.data b.data = true ∨ chLe b.data a.data = true
    generalize a.data = as
    generalize b.data = bs
    have hiff : ∀ (x y : Char) (xs ys : List Char),
        chLe (x :: xs) (y :: ys) = true ↔
          (x.toNat < y.toNat ∨ (x.toNat = y.toNat ∧ chLe xs ys = true)) := by
      intro x y xs ys
      by_cases h1 : x.toNat < y.toNat
      · simp [chLe, h1]
      · by_cases h2 : y.toNat < x.toNat
        · simp [chLe, h1, h2]; omega
        · have h3 : x.toNat = y.toNat := by omega
          simp [chLe, h1, h2, h3]
    induction as generalizing bs with
    | nil => left; rfl
    | cons x xs ih =>
      cases bs with
      | nil => right; rfl
      | cons y ys =>
        rw [hiff, hiff]
        rcases Nat.lt_trichotomy x.toNat y.toNat with h | h | h
        · left; exact Or.inl h
        · rcases ih ys with h2 | h2
          · exact Or.inl (Or.inr ⟨h, h2⟩)
          · exact Or.inr (Or.inr ⟨h.symm, h2⟩)
        · right; exact Or.inl h⟩

instance : IsTrans String strLeP :=
  ⟨fun a b c => by
    show chLe a.data b.data = true → chLe b.data c.data = true →
      chLe a.data c.data = true
    generalize a.data = as
    generalize b.data = bs
    generalize c.data = cs
    have hiff : ∀ (x y : Char) (xs ys : List Char),
        chLe (x :: xs) (y :: ys) = true ↔
          (x.toNat < y.toNat ∨ (x.toNat = y.toNat ∧ chLe xs ys = true)) := by
      intro x y xs ys
      by_cases h1 : x.toNat < y.toNat
      · simp [chLe, h1]
      · by_cases h2 : y.toNat < x.toNat
        · simp [chLe, h1, h2]; omega
        · have h3 : x.toNat = y.toNat := by omega
          simp [chLe, h1, h2, h3]
    intro h1 h2
    induction as generalizing bs cs with
    | nil => rfl
    | cons x xs ih =>
      cases bs with
      | nil => simp [chLe] at h1
      | cons y ys =>
        cases cs with
        | nil => simp [chLe] at h2
        | cons z zs =>
          rw [hiff] at h1 h2 ⊢
          rcases h1 with h1 | ⟨h1e, h1r⟩
          · rcases h2 with h2 | ⟨h2e, _⟩
            · exact Or.inl (Nat.lt_trans h1 h2)
            · exact Or.inl (h2e ▸ h1)
          · rcases h2 with h2 | ⟨h2e, h2r⟩
            · exact Or.inl (h1e ▸ h2)
            · exact Or.inr ⟨h1e.trans h2e, ih ys zs h1r h2r⟩⟩

/-- Stable ascending sort, as the `sort` pipe (Python `sorted`). -/
def sortAsc (l : List String) : List String := List.insertionSort strLeP l

/-- Python `str.isdigit`, restricted to ASCII digits (every version string the
module handles is ASCII).  Note that the empty string is not a digit string. -/
def pyIsdigit (s : String) : Bool := !s.data.isEmpty && s.data.all Char.isDigit

/-- A filesystem entry: a plain file with contents, or a directory with an
ordered list of named children (the order models the `os.listdir` order). -/
inductive Entry where
  | file (content : String)
  | dir (children : List (String × Entry))
deriving Repr

/-- Look up a name among the children of a directory. -/
def findChild : List (String × Entry) → String → Option Entry
  | [], _ => none
  | (k, e) :: rest, n => if k = n then some e else findChild rest n

/-- Replace the entry stored under an existing name (appends if absent). -/
def setChild : List (String × Entry) → String → Entry → List (String × Entry)
  | [], n, e => [(n, e)]
  | (k, c) :: rest, n, e => if k = n then (n, e) :: rest else (k, c) :: setChild rest n e

/-- Remove a name from a children list. -/
def removeChild : List (String × Entry) → String → List (String × Entry)
  | [], _ => []
  | (k, c) :: rest, n => if k = n then rest else (k, c) :: removeChild rest n

/-- Resolve a path from an entry; `none` when the path does not exist (or
descends through a file). -/
def lookup : Entry → List String → Option Entry
  | e, [] => some e
  | .file _, _ :: _ => none
  | .dir cs, n :: rest =>
    match findChild cs n with
    | none => none
    | some c => lookup c rest

/-- Python `os.path.isdir`. -/
def isDirAt (fs : Entry) (p : List String) : Bool :=
  match lookup fs p with
  | some (.dir _) => true
  | _ => false

/-- Python `os.path.isfile`. -/
def isFileAt (fs : Entry) (p : List String) : Bool :=
  match lookup fs p with
  | some (.file _) => true
  | _ => false

/-- Python `os.path.exists`. -/
def pathExists (fs : Entry) (p : List String) : Bool :=
  (lookup fs p).isSome

/-- Child names of the directory at a path; empty when the path is not a
directory.  Used where the source has already checked `isdir`. -/
def listdirNames (fs : Entry) (p : List String) : List String :=
  match lookup fs p with
  | some (.dir cs) => cs.map Prod.fst
  | _ => []

/-- Python `os.listdir`, which raises when the path is not a directory. -/
def listdirE (fs : Entry) (p : List String) : Except String (List String) :=
  match lookup fs p with
  | some (.dir cs) => .ok (cs.map Prod.fst)
  | _ => .error "NotADirectoryError"

/-- Python `open(...)` followed by reading the whole contents. -/
def openAt (fs : Entry) (p : List String) : Except String String :=
  match lookup fs p with
  | some (.file c) => .ok c
  | some (.dir _) => .error "IsADirectoryError"
  | none => .error "FileNotFoundError"

/-- Python `os.makedirs(p, exist_ok=True)`: create every missing directory on
the path; fails when a file stands in the way. -/
def makedirs : Entry → List String → Option Entry
  | e, [] =>
    match e with
    | .dir cs => some (.dir cs)
    | .file _ => none
  | .file _, _ :: _ => none
  | .dir cs, n :: rest =>
    match findChild cs n with
    | some c => (makedirs c rest).map (fun c2 => Entry.dir (setChild cs n c2))
    | none => (makedirs (.dir []) rest).map (fun c2 => Entry.dir (cs ++ [(n, c2)]))

/-- Insert a new child named `n` into the directory at `p`; fails when `p` is
not a directory.  Callers ensure `n` is not already present. -/
def insertAt : Entry → List String → String → Entry → Option Entry
  | .dir cs, [], n, v => some (.dir (cs ++ [(n, v)]))
  | .file _, [], _, _ => none
  | .file _, _ :: _, _, _ => none
  | .dir cs, m :: rest, n, v =>
    match findChild cs m with
    | none => none
    | some c => (insertAt c rest n v).map (fun c2 => Entry.dir (setChild cs m c2))

/-- Remove the entry at a nonempty path; fails when it does not exist. -/
def removeAt : Entry → List String → Option Entry
  | _, [] => none
  | .file _, _ :: _ => none
  | .dir cs, [n] =>
    match findChild cs n with
    | none => none
    | some _ => some (.dir (removeChild cs n))
  | .dir cs, m :: n :: rest =>
    match findChild cs m with
    | none => none
    | some c => (removeAt c (n :: rest)).map (fun c2 => Entry.dir (setChild cs m c2))

/-- Names of the children of a listing that are directories. -/
def dirNamesOf (cs : List (String × Entry)) : List String :=
  (cs.filter (fun kv => match kv.2 with | .dir _ => true | .file _ => false)).map Prod.fst

/-- Names of the children of a listing that are plain files. -/
def fileNamesOf (cs : List (String × Entry)) : List String :=
  (cs.filter (fun kv => match kv.2 with | .file _ => true | .dir _ => false)).map Prod.fst

mutual

/-- Top-down traversal of a directory entry, yielding the triples
(root path, subdirectory names, file names) that Python `os.walk` yields. -/
def walkEntry : Entry → List String → List (List String × List String × List String)
  | .file _, _ => []
  | .dir cs, p => (p, dirNamesOf cs, fileNamesOf cs) :: walkChildren cs p

/-- Traversal of the children of a directory, in listing order. -/
def walkChildren : List (String × Entry) → List String →
    List (List String × List String × List String)
  | [], _ => []
  | (n, e) :: rest, p =>
    (match e with
     | .dir _ => walkEntry e (p ++ [n])
     | .file _ => []) ++ walkChildren rest p

end

/-- Python `os.walk` rooted at a path; yields nothing when the path is not a
directory. -/
def osWalk (fs : Entry) (p : List String) : List (List String × List String × List String) :=
  match lookup fs p with
  | some (.dir cs) => walkEntry (.dir cs) p
  | _ => []

/-- The Python `subfeednames` argument: absent, a bare string, or a list of
segment strings. -/
inductive SubfeedArg where
  | noArg
  | str (s : String)
  | segs (l : List String)
deriving Repr

/-- The normalisation performed by `list_feed_data_vers`, `get_feed_data` and
`add_feed_data_ver`: Python truthiness (`if subfeednames:`) followed by
wrapping a bare string into a one-element list. -/
def normSubfeeds : SubfeedArg → List String
  | .noArg => []
  | .str s => if s = "" then [] else [s]
  | .segs l => l

/-- The splatting performed by `list_feed_subfeeds` via
`os.path.join(feeddir, *subfeednames)`: a bare string is unpacked into its
individual characters. -/
def splatSubfeeds : SubfeedArg → List String
  | .noArg => []
  | .str s => s.data.map (fun c => String.mk [c])
  | .segs l => l

/-- The `versions` directory path used by `list_feed_data_vers` and
`add_feed_data_ver` for a given destination addressing. -/
def versionsDirPath (feedroot feedname feedver : String) (sub : SubfeedArg) : List String :=
  [feedroot, feedname, feedver] ++ normSubfeeds sub ++ ["versions"]

/-- feeds.py `is_base_feed`: a directory having a 4-digit child directory
holding a `versions` directory with at least one all-digit entry. -/
def is_base_feed (fs : Entry) (dirpath : List String) : Except String Bool :=
  if !isDirAt fs dirpath then .ok false
  else do
    let names ← listdirE fs dirpath
    let verDir := ((((names.filter (fun nm => nm.length == 4 && pyIsdigit nm)).map
          (fun nm => dirpath ++ [nm])).filter
          (fun p => isDirAt fs p)).map
          (fun p => p ++ ["versions"])).filter
          (fun p => isDirAt fs p)
    let verDir := verDir.filter (fun p => (listdirNames fs p).any pyIsdigit)
    pure (!verDir.isEmpty)

/-- feeds.py `is_feed`: like `is_base_feed` but walking the whole subtree of
each 4-digit child, looking for a `versions` directory that directly contains
an all-digit *file*. -/
def is_feed (fs : Entry) (dirpath : List String) : Except String Bool :=
  if !isDirAt fs dirpath then .ok false
  else do
    let names ← listdirE fs dirpath
    let verDir := ((names.filter (fun nm => nm.length == 4 && pyIsdigit nm)).map
          (fun nm => dirpath ++ [nm])).filter (fun p => isDirAt fs p)
    pure (verDir.any (fun d =>
      (osWalk fs d).any (fun rdf =>
        rdf.1.getLastD "" == "versions" && rdf.2.2.any pyIsdigit)))

/-- feeds.py `list_feed_vers`: 4-digit child directories of the feed
directory, sorted descending.  `os.listdir` raises when the feed directory
does not exist. -/
def list_feed_vers (fs : Entry) (feedroot feedname : String) :
    Except String (List String) := do
  let dirpath := [feedroot, feedname]
  let names ← listdirE fs dirpath
  let vers := (names.filter (fun nm => nm.length == 4 && pyIsdigit nm)).filter
    (fun nm => isDirAt fs (dirpath ++ [nm]))
  pure (sortAsc vers).reverse

/-- The sort key Python uses in `list_feed_subfeeds`: the walk root minus the
`feeddir` path is a string beginning with the path separator for each
segment. -/
def pathKey (segs : List String) : String :=
  segs.foldl (fun a s => a ++ "/" ++ s) ""

/-- Comparison of subfeed segment lists by their path-string key, as Python
sorts the suffix strings before splitting them. -/
def subLeP (a b : List String) : Prop := strLe (pathKey a) (pathKey b) = true

instance : DecidableRel subLeP := fun a b => decEq (strLe (pathKey a) (pathKey b)) true

/-- feeds.py `list_feed_subfeeds`: walk the subtree under the (splatted)
subfeed path, keep roots that have a `versions` child directory, take their
segments relative to the feed-version directory, sort, and drop any path that
itself contains a `versions` segment. -/
def list_feed_subfeeds (fs : Entry) (feedroot feedname feedver : String)
    (sub : SubfeedArg) : List (List String) :=
  let feeddir := [feedroot, feedname, feedver]
  let dirpath := feeddir ++ splatSubfeeds sub
  if !isDirAt fs dirpath then []
  else
    ((List.insertionSort subLeP
      (((osWalk fs dirpath).filter (fun rdf => rdf.2.1.contains "versions")).map
        (fun rdf => rdf.1.drop feeddir.length))).filter
      (fun parts => !parts.contains "versions"))

/-- feeds.py `list_feed_data_vers`: all-digit entries of the addressed
`versions` directory, sorted descending; empty when that directory does not
exist. -/
def list_feed_data_vers (fs : Entry) (feedroot feedname feedver : String)
    (sub : SubfeedArg) : List String :=
  let dirpath := versionsDirPath feedroot feedname feedver sub
  if !isDirAt fs dirpath then []
  else (sortAsc ((listdirNames fs dirpath).filter pyIsdigit)).reverse

/-- feeds.py `get_feed_data`: open the file at the addressed data version
(descending into `subpath` when given; Python truthiness ignores an empty
subpath). -/
def get_feed_data (fs : Entry) (feedroot feedname feedver dataver : String)
    (sub : SubfeedArg) (subpath : Option String) : Except String String :=
  let base := [feedroot, feedname, feedver] ++ normSubfeeds sub ++ ["versions", dataver]
  let path := base ++ (match subpath with
    | some s => if s = "" then [] else [s]
    | none => [])
  openAt fs path

/-- The copy-or-move step of `add_feed_data_ver`: `shutil.move`,
`shutil.copytree` or `shutil.copyfile` of the source to the dotted temporary
name inside the `versions` directory. -/
def materialize (fs : Entry) (filename : List String) (dirpath : List String)
    (tmpName : String) (move : Bool) : Option Entry :=
  match lookup fs filename with
  | none => none
  | some e =>
    if move then
      match removeAt fs filename with
      | none => none
      | some fs2 => insertAt fs2 dirpath tmpName e
    else insertAt fs dirpath tmpName e

/-- The final `shutil.move(tempdest, permdest)` of `add_feed_data_ver`: a
same-directory rename. -/
def renameIn (fs : Entry) (dirpath : List String) (src dst : String) : Option Entry :=
  match lookup fs (dirpath ++ [src]) with
  | none => none
  | some e =>
    match removeAt fs (dirpath ++ [src]) with
    | none => none
    | some fs2 => insertAt fs2 dirpath dst e

/-- feeds.py `add_feed_data_ver`.  `nowStr` stands for the UTC timestamp the
source formats when no (truthy) explicit version is supplied.  The result is
the filesystem state when the call returns or raises, together with the
outcome: the committed version string, or the exception raised. -/
def add_feed_data_ver (fs : Entry) (filename : List String)
    (feedroot feedname feedver : String) (sub : SubfeedArg)
    (dataver : Option String) (move : Bool) (nowStr : String) :
    Entry × Except String String :=
  let dv := match dataver with
    | none => nowStr
    | some s => if s = "" then nowStr else s
  if !pyIsdigit dv then (fs, .error "AssertionError: dataver") else
  let dirpath := versionsDirPath feedroot feedname feedver sub
  match makedirs fs dirpath with
  | none => (fs, .error "FileExistsError: makedirs")
  | some fs1 =>
    let isdir := isDirAt fs1 filename
    if !(isdir || isFileAt fs1 filename) then (fs1, .error "AssertionError: src") else
    let tempdest := dirpath ++ ["." ++ dv]
    let permdest := dirpath ++ [dv]
    if pathExists fs1 tempdest then (fs1, .error "AssertionError: tempdest") else
    if pathExists fs1 permdest then (fs1, .error "AssertionError: permdest") else
    match materialize fs1 filename dirpath ("." ++ dv) move with
    | none => (fs1, .error "OSError: copy")
    | some fs2 =>
      match renameIn fs2 dirpath ("." ++ dv) dv with
      | none => (fs2, .error "OSError: rename")
      | some fs3 => (fs3, .ok dv)

/-- Directories of a real filesystem never repeat a child name.  `Entry` as a
type does not enforce this, so the well-formedness is tracked explicitly. -/
def nodupKeys : List (String × Entry) → Bool
  | [] => true
  | (k, _) :: rest => (findChild rest k).isNone && nodupKeys rest

mutual

/-- Well-formed filesystem: every directory has pairwise distinct child
names. -/
def wfEntry : Entry → Bool
  | .file _ => true
  | .dir cs => nodupKeys cs && wfChildren cs

/-- Well-formedness of every entry in a children list. -/
def wfChildren : List (String × Entry) → Bool
  | [] => true
  | (_, e) :: rest => wfEntry e && wfChildren rest

end

/-- Strictly-descending comparison in the code-point lexicographic order. -/
def strGtP (a b : String) : Prop := strLe b a = true ∧ a ≠ b

/-- A feed whose only data version is a directory (case 2 of the module
documentation): the feed `feed1` has feed version `0001` whose `versions`
directory holds the directory-valued data version `20180101000000`. -/
def dirDataVerTree : Entry :=
  .dir [("feed1", .dir [("0001", .dir [("versions",
    .dir [("20180101000000", .dir [("a.csv", .file "x")])])])])]

/-- A `versions` directory holding numeric entries and a dotted in-progress
entry. -/
def dottedVersionsTree : Entry :=
  .dir [("r", .dir [("f", .dir [("0001", .dir [("versions",
    .dir [("2", .file "a"), (".0001", .file "tmp"), ("10", .file "b"),
          ("0001", .file "c")])])])])]

/-- A feed version with a single subfeed `us` holding one data version. -/
def subfeedTree : Entry :=
  .dir [("r", .dir [("f", .dir [("0001", .dir [("us", .dir [("versions",
    .dir [("1", .file "a")])])])])])]

/-- A fresh repository with a single source file, for exercising the write
path. -/
def emptyRepoTree : Entry := .dir [("src", .file "hello"), ("r", .dir [])]

/-- C7 counterexample claim state: same shape as `emptyRepoTree`, named apart
so the claims stay independent. -/
def emptyRepoTree2 : Entry := .dir [("src", .file "hello"), ("r", .dir [])]

/-- C10 witness: a tree whose feed version holds both a direct versions
directory and a subfeed. -/
def directVersionsTree : Entry :=
  .dir [("r", .dir [("f", .dir [("0001", .dir [
    ("versions", .dir [("1", .file "a")]),
    ("us", .dir [("versions", .dir [("2", .file "b")])])])])])]

/-- C6 witness tree: a feed with two versions and a versions directory with
unordered numeric and non-numeric entries. -/
def orderedListingTree : Entry :=
  .dir [("r", .dir [("f", .dir [
    ("0001", .dir [("versions",
      .dir [("2", .file "a"), (".0001", .file "t"), ("10", .file "b"),
            ("0003", .file "c")])]),
    ("0002", .dir [("versions", .dir [])]),
    ("abcd", .dir []),
    ("0007", .file "z")])])]

/-- C1 witness repository: one source file and an empty feed root. -/
def atomicWitnessTree : Entry := .dir [("src", .file "hello"), ("r", .dir [])]

theorem sortAsc_pairwise (l : List String) : (sortAsc l).Pairwise strLeP :=
  List.sorted_insertionSort strLeP l

theorem sortAsc_perm (l : List String) : (sortAsc l).Perm l :=
  List.perm_insertionSort strLeP l

theorem mem_sortAsc (x : String) (l : List String) : x ∈ sortAsc l ↔ x ∈ l :=
  List.mem_insertionSort strLeP

theorem lookup_append (fs : Entry) (p q : List String) :
    lookup fs (p ++ q) = match lookup fs p with
      | some e => lookup e q
      | none => none := by
  induction p generalizing fs with
  | nil => simp [lookup]
  | cons n rest ih =>
    cases fs with
    | file c => simp [lookup]
    | dir cs =>
      simp only [List.cons_append, lookup]
      cases findChild cs n with
      | none => rfl
      | some c => exact ih c

theorem findChild_append (cs ds : List (String × Entry)) (n : String) :
    findChild (cs ++ ds) n = match findChild cs n with
      | some e => some e
      | none => findChild ds n := by
  induction cs with
  | nil => simp [findChild]
  | cons kv rest ih =>
    obtain ⟨k, e⟩ := kv
    simp only [List.cons_append, findChild]
    by_cases h : k = n
    · simp [h]
    · simp [h, ih]

theorem findChild_setChild_self (cs : List (String × Entry)) (n : String) (e : Entry) :
    findChild (setChild cs n e) n = some e := by
  induction cs with
  | nil => simp [setChild, findChild]
  | cons kv rest ih =>
    obtain ⟨k, c⟩ := kv
    by_cases h : k = n
    · simp [setChild, h, findChild]
    · simp [setChild, h, findChild, ih]

theorem findChild_setChild_ne (cs : List (String × Entry)) (n m : String) (e : Entry)
    (h : m ≠ n) : findChild (setChild cs n e) m = findChild cs m := by
  induction cs with
  | nil => simp [setChild, findChild, Ne.symm h]
  | cons kv rest ih =>
    obtain ⟨k, c⟩ := kv
    by_cases hk : k = n
    · subst hk
      simp [setChild, findChild, Ne.symm h]
    · simp [setChild, hk, findChild, ih]

theorem findChild_removeChild_ne (cs : List (String × Entry)) (n m : String)
    (h : m ≠ n) : findChild (removeChild cs n) m = findChild cs m := by
  induction cs with
  | nil => simp [removeChild]
  | cons kv rest ih =>
    obtain ⟨k, c⟩ := kv
    by_cases hk : k = n
    · subst hk
      simp [removeChild, findChild, Ne.symm h]
    · simp [removeChild, hk, findChild, ih]

theorem removeChild_append_of_none (cs : List (String × Entry)) (n : String) (e : Entry)
    (h : findChild cs n = none) : removeChild (cs ++ [(n, e)]) n = cs := by
  induction cs with
  | nil => simp [removeChild]
  | cons kv rest ih =>
    obtain ⟨k, c⟩ := kv
    simp only [findChild] at h
    by_cases hk : k = n
    · simp [hk] at h
    · simp only [List.cons_append, removeChild, if_neg hk]
      exact congrArg (fun l => (k, c) :: l) (ih (by simpa [hk] using h))

theorem findChild_mem (cs : List (String × Entry)) (n : String) (c : Entry)
    (h : findChild cs n = some c) : (n, c) ∈ cs := by
  induction cs with
  | nil => simp [findChild] at h
  | cons kv rest ih =>
    obtain ⟨k, e⟩ := kv
    simp only [findChild] at h
    by_cases hk : k = n
    · subst hk
      simp at h
      simp [h]
    · simp [hk] at h
      exact List.mem_cons_of_mem _ (ih h)

theorem keys_setChild (cs : List (String × Entry)) (n : String) (c e : Entry)
    (h : findChild cs n = some c) :
    (setChild cs n e).map Prod.fst = cs.map Prod.fst := by
  induction cs with
  | nil => simp [findChild] at h
  | cons kv rest ih =>
    obtain ⟨k, x⟩ := kv
    simp only [findChild] at h
    by_cases hk : k = n
    · subst hk
      simp [setChild]
    · simp [hk] at h
      simp [setChild, hk, ih h]

theorem setChild_self (cs : List (String × Entry)) (n : String) (c : Entry)
    (h : findChild cs n = some c) : setChild cs n c = cs := by
  induction cs with
  | nil => simp [findChild] at h
  | cons kv rest ih =>
    obtain ⟨k, e⟩ := kv
    simp only [findChild] at h
    by_cases hk : k = n
    · subst hk
      simp at h
      simp [setChild, h]
    · simp [hk] at h
      simp [setChild, hk, ih h]

theorem isDirAt_dir_cons (cs : List (String × Entry)) (n : String) (rest : List String) :
    isDirAt (.dir cs) (n :: rest) = (match findChild cs n with
      | some c => isDirAt c rest
      | none => false) := by
  cases h : findChild cs n with
  | none => simp [isDirAt, lookup, h]
  | some c => simp [isDirAt, lookup, h]

theorem lookup_dir_cons (cs : List (String × Entry)) (n : String) (rest : List String) :
    lookup (.dir cs) (n :: rest) = (match findChild cs n with
      | some c => lookup c rest
      | none => none) := by
  cases h : findChild cs n <;> simp [lookup, h]

theorem makedirs_isDir (fs fs1 : Entry) (p : List String)
    (h : makedirs fs p = some fs1) : isDirAt fs1 p = true := by
  induction p generalizing fs fs1 with
  | nil =>
    cases fs with
    | file c => simp [makedirs] at h
    | dir cs =>
      simp [makedirs] at h
      simp [← h, isDirAt, lookup]
  | cons n rest ih =>
    cases fs with
    | file c => simp [makedirs] at h
    | dir cs =>
      cases hf : findChild cs n with
      | some c =>
        simp only [makedirs, hf] at h
        cases hm : makedirs c rest with
        | none => rw [hm] at h; simp at h
        | some c2 =>
          rw [hm] at h
          simp at h
          rw [← h, isDirAt_dir_cons, findChild_setChild_self]
          exact ih c c2 hm
      | none =>
        simp only [makedirs, hf] at h
        cases hm : makedirs (.dir []) rest with
        | none => rw [hm] at h; simp at h
        | some c2 =>
          rw [hm] at h
          simp at h
          rw [← h, isDirAt_dir_cons, findChild_append, hf]
          simp [findChild]
          exact ih _ c2 hm

theorem makedirs_lookup_deeper (fs fs1 : Entry) (p : List String)
    (h : makedirs fs p = some fs1) (n : String) (q : List String) :
    lookup fs1 (p ++ n :: q) = lookup fs (p ++ n :: q) := by
  induction p generalizing fs fs1 with
  | nil =>
    cases fs with
    | file c => simp [makedirs] at h
    | dir cs =>
      simp [makedirs] at h
      rw [← h]
  | cons m rest ih =>
    cases fs with
    | file c => simp [makedirs] at h
    | dir cs =>
      cases hf : findChild cs m with
      | some c =>
        simp only [makedirs, hf] at h
        cases hm : makedirs c rest with
        | none => rw [hm] at h; simp at h
        | some c2 =>
          rw [hm] at h
          simp at h
          rw [← h]
          simp only [List.cons_append, lookup_dir_cons, findChild_setChild_self, hf]
          exact ih c c2 hm
      | none =>
        simp only [makedirs, hf] at h
        cases hm : makedirs (.dir []) rest with
        | none => rw [hm] at h; simp at h
        | some c2 =>
          rw [hm] at h
          simp at h
          rw [← h]
          have hfc : findChild (cs ++ [(m, c2)]) m = some c2 := by
            rw [findChild_append, hf]
            simp [findChild]
          simp only [List.cons_append, lookup_dir_cons, hfc, hf]
          rw [ih _ c2 hm]
          cases rest with
          | nil => simp [lookup, findChild]
          | cons a as => simp [lookup_dir_cons, findChild]

theorem makedirs_preserves_file (fs fs1 : Entry) (p : List String)
    (h : makedirs fs p = some fs1) (q : List String) (ct : String)
    (hq : lookup fs q = some (.file ct)) : lookup fs1 q = some (.file ct) := by
  induction p generalizing fs fs1 q with
  | nil =>
    cases fs with
    | file c => simp [makedirs] at h
    | dir cs =>
      simp [makedirs] at h
      rw [← h]
      exact hq
  | cons m rest ih =>
    cases fs with
    | file c => simp [makedirs] at h
    | dir cs =>
      cases q with
      | nil => simp [lookup] at hq
      | cons k q2 =>
        rw [lookup_dir_cons] at hq
        cases hf : findChild cs m with
        | some c =>
          simp only [makedirs, hf] at h
          cases hm : makedirs c rest with
          | none => rw [hm] at h; simp at h
          | some c2 =>
            rw [hm] at h
            simp at h
            rw [← h, lookup_dir_cons]
            by_cases hk : k = m
            · subst hk
              rw [hf] at hq
              rw [findChild_setChild_self]
              exact ih c c2 hm q2 hq
            · rw [findChild_setChild_ne cs m k c2 hk]
              cases hfk : findChild cs k with
              | none => rw [hfk] at hq; exact hq
              | some ck => rw [hfk] at hq; exact hq
        | none =>
          simp only [makedirs, hf] at h
          cases hm : makedirs (.dir []) rest with
          | none => rw [hm] at h; simp at h
          | some c2 =>
            rw [hm] at h
            simp at h
            rw [← h, lookup_dir_cons, findChild_append]
            by_cases hk : k = m
            · subst hk
              rw [hf] at hq
              simp at hq
            · cases hfk : findChild cs k with
              | none =>
                rw [hfk] at hq
                simp at hq
              | some ck =>
                simp only [hfk] at hq
                simp only [hfk]
                exact hq

theorem makedirs_id_of_isDir (fs : Entry) (p : List String)
    (h : isDirAt fs p = true) : makedirs fs p = some fs := by
  induction p generalizing fs with
  | nil =>
    cases fs with
    | file c => simp [isDirAt, lookup] at h
    | dir cs => simp [makedirs]
  | cons n rest ih =>
    cases fs with
    | file c => simp [isDirAt, lookup] at h
    | dir cs =>
      rw [isDirAt_dir_cons] at h
      cases hf : findChild cs n with
      | none => rw [hf] at h; simp at h
      | some c =>
        rw [hf] at h
        simp only [makedirs, hf]
        rw [ih c h]
        simp [setChild_self cs n c hf]

theorem insertAt_isSome_of_isDir (fs : Entry) (p : List String) (n : String) (v : Entry)
    (h : isDirAt fs p = true) : ∃ fs2, insertAt fs p n v = some fs2 := by
  induction p generalizing fs with
  | nil =>
    cases fs with
    | file c => simp [isDirAt, lookup] at h
    | dir cs => exact ⟨_, rfl⟩
  | cons m rest ih =>
    cases fs with
    | file c => simp [isDirAt, lookup] at h
    | dir cs =>
      rw [isDirAt_dir_cons] at h
      cases hf : findChild cs m with
      | none => rw [hf] at h; simp at h
      | some c =>
        rw [hf] at h
        obtain ⟨c2, hc2⟩ := ih c h
        refine ⟨.dir (setChild cs m c2), ?_⟩
        simp [insertAt, hf, hc2]

theorem insertAt_some_dir (fs fs2 : Entry) (p : List String) (n : String) (v : Entry)
    (h : insertAt fs p n v = some fs2) : ∃ cs, lookup fs p = some (.dir cs) := by
  induction p generalizing fs fs2 with
  | nil =>
    cases fs with
    | file c => simp [insertAt] at h
    | dir cs => exact ⟨cs, rfl⟩
  | cons m rest ih =>
    cases fs with
    | file c => simp [insertAt] at h
    | dir cs =>
      cases hf : findChild cs m with
      | none => simp [insertAt, hf] at h
      | some c =>
        simp only [insertAt, hf] at h
        cases hi : insertAt c rest n v with
        | none => rw [hi] at h; simp at h
        | some c2 =>
          obtain ⟨cs2, hcs2⟩ := ih c c2 hi
          rw [lookup_dir_cons, hf]
          exact ⟨cs2, hcs2⟩

theorem insertAt_dir (fs fs2 : Entry) (p : List String) (n : String) (v : Entry)
    (cs : List (String × Entry)) (h : insertAt fs p n v = some fs2)
    (hp : lookup fs p = some (.dir cs)) :
    lookup fs2 p = some (.dir (cs ++ [(n, v)])) := by
  induction p generalizing fs fs2 with
  | nil =>
    cases fs with
    | file c => simp [insertAt] at h
    | dir cs0 =>
      simp [lookup] at hp
      simp [insertAt] at h
      rw [← h, ← hp]
      rfl
  | cons m rest ih =>
    cases fs with
    | file c => simp [insertAt] at h
    | dir cs0 =>
      rw [lookup_dir_cons] at hp
      cases hf : findChild cs0 m with
      | none => rw [hf] at hp; simp at hp
      | some c =>
        rw [hf] at hp
        simp only [insertAt, hf] at h
        cases hi : insertAt c rest n v with
        | none => rw [hi] at h; simp at h
        | some c2 =>
          rw [hi] at h
          simp at h
          rw [← h, lookup_dir_cons, findChild_setChild_self]
          exact ih c c2 hi hp

theorem insertAt_sibling (fs fs2 : Entry) (p : List String) (n : String) (v : Entry)
    (h : insertAt fs p n v = some fs2) (m : String) (hm : m ≠ n) (q : List String) :
    lookup fs2 (p ++ m :: q) = lookup fs (p ++ m :: q) := by
  induction p generalizing fs fs2 with
  | nil =>
    cases fs with
    | file c => simp [insertAt] at h
    | dir cs =>
      simp [insertAt] at h
      rw [← h]
      simp only [List.nil_append, lookup_dir_cons, findChild_append]
      cases hfm : findChild cs m with
      | some c => rfl
      | none => simp [findChild, Ne.symm hm]
  | cons k rest ih =>
    cases fs with
    | file c => simp [insertAt] at h
    | dir cs =>
      cases hf : findChild cs k with
      | none => simp [insertAt, hf] at h
      | some c =>
        simp only [insertAt, hf] at h
        cases hi : insertAt c rest n v with
        | none => rw [hi] at h; simp at h
        | some c2 =>
          rw [hi] at h
          simp at h
          rw [← h]
          simp only [List.cons_append, lookup_dir_cons, findChild_setChild_self, hf]
          exact ih c c2 hi

theorem removeAt_isSome (fs : Entry) (p : List String) (n : String) (x : Entry)
    (h : lookup fs (p ++ [n]) = some x) : ∃ fs2, removeAt fs (p ++ [n]) = some fs2 := by
  induction p generalizing fs with
  | nil =>
    cases fs with
    | file c => simp [lookup] at h
    | dir cs =>
      rw [List.nil_append, lookup_dir_cons] at h
      cases hf : findChild cs n with
      | none => rw [hf] at h; simp at h
      | some c => exact ⟨.dir (removeChild cs n), by simp [removeAt, hf]⟩
  | cons m rest ih =>
    cases fs with
    | file c => simp [lookup] at h
    | dir cs =>
      rw [List.cons_append, lookup_dir_cons] at h
      cases hf : findChild cs m with
      | none => rw [hf] at h; simp at h
      | some c =>
        rw [hf] at h
        obtain ⟨c2, hc2⟩ := ih c h
        refine ⟨.dir (setChild cs m c2), ?_⟩
        cases rest with
        | nil =>
          simp only [List.cons_append, List.nil_append, removeAt, hf]
          rw [show removeAt c [n] = some c2 from hc2]
          rfl
        | cons a as =>
          simp only [List.cons_append, removeAt, hf]
          rw [show removeAt c (a :: as.append [n]) = some c2 from hc2]
          rfl

theorem removeAt_dir (fs fs2 : Entry) (p : List String) (n : String)
    (cs : List (String × Entry)) (h : removeAt fs (p ++ [n]) = some fs2)
    (hp : lookup fs p = some (.dir cs)) :
    lookup fs2 p = some (.dir (removeChild cs n)) := by
  induction p generalizing fs fs2 with
  | nil =>
    cases fs with
    | file c => simp [removeAt] at h
    | dir cs0 =>
      simp [lookup] at hp
      simp only [List.nil_append, removeAt] at h
      cases hf : findChild cs0 n with
      | none => rw [hf] at h; simp at h
      | some c =>
        rw [hf] at h
        simp at h
        rw [← h, ← hp]
        rfl
  | cons m rest ih =>
    cases fs with
    | file c => simp [removeAt] at h
    | dir cs0 =>
      rw [lookup_dir_cons] at hp
      cases hf : findChild cs0 m with
      | none => rw [hf] at hp; simp at hp
      | some c =>
        rw [hf] at hp
        have hstep : ∃ c2, removeAt c (rest ++ [n]) = some c2 ∧
            fs2 = .dir (setChild cs0 m c2) := by
          cases rest with
          | nil =>
            simp only [List.cons_append, List.nil_append, removeAt, hf] at h
            obtain ⟨c2, hc2, hmapped⟩ := Option.map_eq_some'.mp h
            exact ⟨c2, hc2, hmapped.symm⟩
          | cons a as =>
            simp only [List.cons_append, removeAt, hf] at h
            obtain ⟨c2, hc2, hmapped⟩ := Option.map_eq_some'.mp h
            exact ⟨c2, hc2, hmapped.symm⟩
        obtain ⟨c2, hc2, hfs2⟩ := hstep
        rw [hfs2, lookup_dir_cons, findChild_setChild_self]
        exact ih c c2 hc2 hp

theorem wfEntry_dir (cs : List (String × Entry)) :
    wfEntry (.dir cs) = (nodupKeys cs && wfChildren cs) := by
  simp [wfEntry]

theorem wfChildren_findChild (cs : List (String × Entry)) (h : wfChildren cs = true)
    (n : String) (c : Entry) (hf : findChild cs n = some c) : wfEntry c = true := by
  induction cs with
  | nil => simp [findChild] at hf
  | cons kv rest ih =>
    obtain ⟨k, e⟩ := kv
    simp only [wfChildren, Bool.and_eq_true] at h
    simp only [findChild] at hf
    by_cases hk : k = n
    · simp [hk] at hf
      rw [← hf]
      exact h.1
    · simp [hk] at hf
      exact ih h.2 hf

theorem nodup_findChild_removeChild (cs : List (String × Entry)) (n : String)
    (h : nodupKeys cs = true) : findChild (removeChild cs n) n = none := by
  induction cs with
  | nil => simp [removeChild, findChild]
  | cons kv rest ih =>
    obtain ⟨k, e⟩ := kv
    simp only [nodupKeys, Bool.and_eq_true, Option.isNone_iff_eq_none] at h
    by_cases hk : k = n
    · subst hk
      simp [removeChild, h.1]
    · simp [removeChild, hk, findChild, ih h.2]

theorem removeAt_isSome_mono (fs fs2 : Entry) (r : List String)
    (hwf : wfEntry fs = true) (h : removeAt fs r = some fs2) (q : List String)
    (hq : (lookup fs2 q).isSome = true) : (lookup fs q).isSome = true := by
  induction r generalizing fs fs2 q with
  | nil => simp [removeAt] at h
  | cons a r2 ih =>
    cases fs with
    | file c => simp [removeAt] at h
    | dir cs =>
      rw [wfEntry_dir, Bool.and_eq_true] at hwf
      obtain ⟨hnd, hwfc⟩ := hwf
      cases r2 with
      | nil =>
        cases hf : findChild cs a with
        | none => simp [removeAt, hf] at h
        | some c =>
          simp only [removeAt, hf] at h
          simp at h
          cases q with
          | nil => simp [lookup]
          | cons k q2 =>
            rw [← h] at hq
            by_cases hk : k = a
            · subst hk
              rw [lookup_dir_cons, nodup_findChild_removeChild cs k hnd] at hq
              simp at hq
            · rw [lookup_dir_cons, findChild_removeChild_ne cs a k hk] at hq
              rw [lookup_dir_cons]
              exact hq
      | cons b r3 =>
        cases hf : findChild cs a with
        | none => simp [removeAt, hf] at h
        | some c =>
          simp only [removeAt, hf] at h
          obtain ⟨c2, hc2, hmap⟩ := Option.map_eq_some'.mp h
          cases q with
          | nil => simp [lookup]
          | cons k q2 =>
            rw [← hmap] at hq
            by_cases hk : k = a
            · subst hk
              rw [lookup_dir_cons, findChild_setChild_self] at hq
              rw [lookup_dir_cons, hf]
              exact ih c c2 (wfChildren_findChild cs hwfc k c hf) hc2 q2 hq
            · rw [lookup_dir_cons, findChild_setChild_ne cs a k c2 hk] at hq
              rw [lookup_dir_cons]
              exact hq

theorem lookup_none_of_removeAt (fs fs2 : Entry) (r : List String)
    (hwf : wfEntry fs = true) (h : removeAt fs r = some fs2) (q : List String)
    (hq : lookup fs q = none) : lookup fs2 q = none := by
  cases hl : lookup fs2 q with
  | none => rfl
  | some x =>
    have := removeAt_isSome_mono fs fs2 r hwf h q (by simp [hl])
    rw [hq] at this
    simp at this

theorem nodupKeys_setChild (cs : List (String × Entry)) (n : String) (c2 : Entry)
    (h : nodupKeys cs = true) : nodupKeys (setChild cs n c2) = true := by
  induction cs with
  | nil => simp [setChild, nodupKeys, findChild]
  | cons kv rest ih =>
    obtain ⟨k, e⟩ := kv
    simp only [nodupKeys, Bool.and_eq_true, Option.isNone_iff_eq_none] at h
    by_cases hk : k = n
    · subst hk
      simp only [setChild, if_pos rfl, nodupKeys, Bool.and_eq_true,
        Option.isNone_iff_eq_none]
      exact ⟨h.1, h.2⟩
    · simp only [setChild, if_neg hk, nodupKeys, Bool.and_eq_true,
        Option.isNone_iff_eq_none]
      refine ⟨?_, ih h.2⟩
      rw [findChild_setChild_ne rest n k c2 hk]
      exact h.1

theorem wfChildren_setChild (cs : List (String × Entry)) (n : String) (c2 : Entry)
    (h : wfChildren cs = true) (hc : wfEntry c2 = true) :
    wfChildren (setChild cs n c2) = true := by
  induction cs with
  | nil => simp [setChild, wfChildren, hc]
  | cons kv rest ih =>
    obtain ⟨k, e⟩ := kv
    simp only [wfChildren, Bool.and_eq_true] at h
    by_cases hk : k = n
    · simp only [setChild, if_pos hk, wfChildren, Bool.and_eq_true]
      exact ⟨hc, h.2⟩
    · simp only [setChild, if_neg hk, wfChildren, Bool.and_eq_true]
      exact ⟨h.1, ih h.2⟩

theorem nodupKeys_append_single (cs : List (String × Entry)) (n : String) (c2 : Entry)
    (h : nodupKeys cs = true) (hn : findChild cs n = none) :
    nodupKeys (cs ++ [(n, c2)]) = true := by
  induction cs with
  | nil => simp [nodupKeys, findChild]
  | cons kv rest ih =>
    obtain ⟨k, e⟩ := kv
    simp only [nodupKeys, Bool.and_eq_true, Option.isNone_iff_eq_none] at h
    simp only [findChild] at hn
    by_cases hk : k = n
    · simp [hk] at hn
    · simp only [List.cons_append, nodupKeys, Bool.and_eq_true,
        Option.isNone_iff_eq_none]
      refine ⟨?_, ih h.2 (by simpa [hk] using hn)⟩
      rw [show findChild (rest.append [(n, c2)]) k = findChild (rest ++ [(n, c2)]) k from rfl,
        findChild_append, h.1]
      simp [findChild, Ne.symm hk]

theorem wfChildren_append_single (cs : List (String × Entry)) (n : String) (c2 : Entry)
    (h : wfChildren cs = true) (hc : wfEntry c2 = true) :
    wfChildren (cs ++ [(n, c2)]) = true := by
  induction cs with
  | nil => simp [wfChildren, hc]
  | cons kv rest ih =>
    obtain ⟨k, e⟩ := kv
    simp only [wfChildren, Bool.and_eq_true] at h
    simp only [List.cons_append, wfChildren, Bool.and_eq_true]
    exact ⟨h.1, ih h.2⟩

theorem makedirs_wf (fs fs1 : Entry) (p : List String)
    (hwf : wfEntry fs = true) (h : makedirs fs p = some fs1) : wfEntry fs1 = true := by
  induction p generalizing fs fs1 with
  | nil =>
    cases fs with
    | file c => simp [makedirs] at h
    | dir cs =>
      simp [makedirs] at h
      rw [← h]
      exact hwf
  | cons n rest ih =>
    cases fs with
    | file c => simp [makedirs] at h
    | dir cs =>
      rw [wfEntry_dir, Bool.and_eq_true] at hwf
      obtain ⟨hnd, hwfc⟩ := hwf
      cases hf : findChild cs n with
      | some c =>
        simp only [makedirs, hf] at h
        obtain ⟨c2, hc2, hmap⟩ := Option.map_eq_some'.mp h
        rw [← hmap, wfEntry_dir, Bool.and_eq_true]
        have hwc : wfEntry c = true := wfChildren_findChild cs hwfc n c hf
        exact ⟨nodupKeys_setChild cs n c2 hnd,
          wfChildren_setChild cs n c2 hwfc (ih c c2 hwc hc2)⟩
      | none =>
        simp only [makedirs, hf] at h
        obtain ⟨c2, hc2, hmap⟩ := Option.map_eq_some'.mp h
        rw [← hmap, wfEntry_dir, Bool.and_eq_true]
        have hwc2 : wfEntry c2 = true := ih _ c2 (by simp [wfEntry, nodupKeys, wfChildren]) hc2
        exact ⟨nodupKeys_append_single cs n c2 hnd hf,
          wfChildren_append_single cs n c2 hwfc hwc2⟩

theorem lookup_single (cs : List (String × Entry)) (x : String) :
    lookup (.dir cs) [x] = findChild cs x := by
  cases hf : findChild cs x <;> simp [lookup, hf]

theorem lookup_append_single (fs : Entry) (p : List String) (cs : List (String × Entry))
    (x : String) (h : lookup fs p = some (.dir cs)) :
    lookup fs (p ++ [x]) = findChild cs x := by
  rw [lookup_append, h]
  exact lookup_single cs x

theorem pathExists_false_iff (fs : Entry) (p : List String) :
    pathExists fs p = false ↔ lookup fs p = none := by
  cases h : lookup fs p <;> simp [pathExists, h]

theorem dot_append_ne (dv : String) : ("." ++ dv) ≠ dv := by
  intro h
  have h2 := congrArg String.length h
  rw [String.length_append] at h2
  have h3 : ".".length = 1 := rfl
  omega

theorem add_ok_inv (fs fs' : Entry) (fn : List String) (r n v : String)
    (sub : SubfeedArg) (dvArg : Option String) (mv : Bool) (now dv : String)
    (h : add_feed_data_ver fs fn r n v sub dvArg mv now = (fs', .ok dv)) :
    pyIsdigit dv = true ∧
    ∃ fs1 fs2,
      makedirs fs (versionsDirPath r n v sub) = some fs1 ∧
      (isDirAt fs1 fn || isFileAt fs1 fn) = true ∧
      pathExists fs1 (versionsDirPath r n v sub ++ ["." ++ dv]) = false ∧
      pathExists fs1 (versionsDirPath r n v sub ++ [dv]) = false ∧
      materialize fs1 fn (versionsDirPath r n v sub) ("." ++ dv) mv = some fs2 ∧
      renameIn fs2 (versionsDirPath r n v sub) ("." ++ dv) dv = some fs' := by
  simp only [add_feed_data_ver] at h
  generalize hDV : (match dvArg with
    | none => now
    | some s => if s = "" then now else s) = dv0 at h
  split at h
  · simp at h
  · rename_i hd
    rw [Bool.not_eq_true', Bool.not_eq_false] at hd
    split at h
    · simp at h
    · rename_i fs1 hm
      split at h
      · simp at h
      · rename_i hsrc
        rw [Bool.not_eq_true', Bool.not_eq_false] at hsrc
        split at h
        · simp at h
        · rename_i ht
          rw [Bool.not_eq_true] at ht
          split at h
          · simp at h
          · rename_i hp
            rw [Bool.not_eq_true] at hp
            split at h
            · simp at h
            · rename_i fs2 hmat
              split at h
              · simp at h
              · rename_i fs3 hren
                simp only [Prod.mk.injEq, Except.ok.injEq] at h
                obtain ⟨hfs3, hdv⟩ := h
                subst hdv
                subst hfs3
                exact ⟨hd, fs1, fs2, hm, hsrc, ht, hp, hmat, hren⟩

theorem materialize_inv (fs fs2 : Entry) (fn dirpath : List String) (tmp : String)
    (mv : Bool) (h : materialize fs fn dirpath tmp mv = some fs2) :
    ∃ e, lookup fs fn = some e ∧
      ((mv = true ∧ ∃ fsb, removeAt fs fn = some fsb ∧ insertAt fsb dirpath tmp e = some fs2) ∨
       (mv = false ∧ insertAt fs dirpath tmp e = some fs2)) := by
  simp only [materialize] at h
  split at h
  · simp at h
  · rename_i e hlk
    split at h
    · rename_i hmv
      split at h
      · simp at h
      · rename_i fsb hrm
        exact ⟨e, hlk, Or.inl ⟨hmv, fsb, hrm, h⟩⟩
    · rename_i hmv
      rw [Bool.not_eq_true] at hmv
      exact ⟨e, hlk, Or.inr ⟨hmv, h⟩⟩

theorem add_ok_spec (fs fs' : Entry) (fn : List String) (r n v : String) (sub : SubfeedArg)
    (dvArg : Option String) (mv : Bool) (now dv : String)
    (hwf : wfEntry fs = true)
    (h : add_feed_data_ver fs fn r n v sub dvArg mv now = (fs', .ok dv)) :
    pyIsdigit dv = true ∧
    isDirAt fs' (versionsDirPath r n v sub) = true ∧
    lookup fs' (versionsDirPath r n v sub ++ ["." ++ dv]) = none ∧
    ∃ e, lookup fs' (versionsDirPath r n v sub ++ [dv]) = some e ∧
      (∀ c, lookup fs fn = some (.file c) → e = .file c) := by
  obtain ⟨hd, fs1, fs2, hm, hsrc, ht, hp, hmat, hren⟩ :=
    add_ok_inv fs fs' fn r n v sub dvArg mv now dv h
  have hwf1 : wfEntry fs1 = true := makedirs_wf fs fs1 _ hwf hm
  have ht2 : lookup fs1 (versionsDirPath r n v sub ++ ["." ++ dv]) = none :=
    (pathExists_false_iff _ _).mp ht
  have hp2 : lookup fs1 (versionsDirPath r n v sub ++ [dv]) = none :=
    (pathExists_false_iff _ _).mp hp
  obtain ⟨e, he, hcase⟩ := materialize_inv fs1 fs2 fn _ _ mv hmat
  have hcommon : ∃ fsb, insertAt fsb (versionsDirPath r n v sub) ("." ++ dv) e = some fs2 ∧
      lookup fsb (versionsDirPath r n v sub ++ ["." ++ dv]) = none ∧
      lookup fsb (versionsDirPath r n v sub ++ [dv]) = none := by
    rcases hcase with ⟨_, fsb, hrm, hins⟩ | ⟨_, hins⟩
    · exact ⟨fsb, hins, lookup_none_of_removeAt fs1 fsb fn hwf1 hrm _ ht2,
        lookup_none_of_removeAt fs1 fsb fn hwf1 hrm _ hp2⟩
    · exact ⟨fs1, hins, ht2, hp2⟩
  obtain ⟨fsb, hins, htb, hpb⟩ := hcommon
  obtain ⟨csb, hcsb⟩ := insertAt_some_dir fsb fs2 _ _ e hins
  have h2 : lookup fs2 (versionsDirPath r n v sub) =
      some (.dir (csb ++ [("." ++ dv, e)])) :=
    insertAt_dir fsb fs2 _ _ e csb hins hcsb
  have hfctmp : findChild csb ("." ++ dv) = none := by
    have hx := lookup_append_single fsb _ csb ("." ++ dv) hcsb
    rw [htb] at hx
    exact hx.symm
  have hfcdv : findChild csb dv = none := by
    have hx := lookup_append_single fsb _ csb dv hcsb
    rw [hpb] at hx
    exact hx.symm
  have hlk2 : lookup fs2 (versionsDirPath r n v sub ++ ["." ++ dv]) = some e := by
    rw [lookup_append_single fs2 _ _ ("." ++ dv) h2, findChild_append, hfctmp]
    simp [findChild]
  simp only [renameIn, hlk2] at hren
  split at hren
  · simp at hren
  · rename_i fs2b hrm2
    have h2b : lookup fs2b (versionsDirPath r n v sub) = some (.dir csb) := by
      have hx := removeAt_dir fs2 fs2b _ ("." ++ dv) _ hrm2 h2
      rw [removeChild_append_of_none csb ("." ++ dv) e hfctmp] at hx
      exact hx
    have h3 : lookup fs' (versionsDirPath r n v sub) =
        some (.dir (csb ++ [(dv, e)])) :=
      insertAt_dir fs2b fs' _ dv e csb hren h2b
    refine ⟨hd, ?_, ?_, e, ?_, ?_⟩
    · simp [isDirAt, h3]
    · rw [lookup_append_single fs' _ _ ("." ++ dv) h3, findChild_append, hfctmp]
      simp [findChild, Ne.symm (dot_append_ne dv)]
    · rw [lookup_append_single fs' _ _ dv h3, findChild_append, hfcdv]
      simp [findChild]
    · intro c hc
      have hc1 : lookup fs1 fn = some (.file c) :=
        makedirs_preserves_file fs fs1 _ hm fn c hc
      rw [he] at hc1
      exact Option.some.inj hc1

/-- C4: a name that is not entirely numeric never appears in the output of
list_feed_data_vers. -/
theorem list_feed_data_vers_numeric_only (fs : Entry) (r n v : String)
    (sub : SubfeedArg) (x : String) (hx : pyIsdigit x = false) :
    x ∉ list_feed_data_vers fs r n v sub := by
  intro hmem
  by_cases hdir : isDirAt fs (versionsDirPath r n v sub) = true
  · simp only [list_feed_data_vers, hdir, Bool.not_true, Bool.false_eq_true,
      if_false] at hmem
    rw [List.mem_reverse, mem_sortAsc] at hmem
    have := (List.mem_filter.mp hmem).2
    rw [hx] at this
    simp at this
  · rw [Bool.not_eq_true] at hdir
    simp [list_feed_data_vers, hdir] at hmem

/-- C4 witness: the dotted entry `.0001` is not numeric, so it is absent from
the listing of a concrete `versions` directory. -/
theorem list_feed_data_vers_numeric_only_witness :
    pyIsdigit ".0001" = false ∧
    ".0001" ∉ list_feed_data_vers dottedVersionsTree "r" "f" "0001" SubfeedArg.noArg :=
  ⟨by decide,
    list_feed_data_vers_numeric_only dottedVersionsTree "r" "f" "0001"
      SubfeedArg.noArg ".0001" (by decide)⟩

/-- C5: on a feed whose data version is a directory, is_base_feed holds but
is_feed does not, refuting that is_feed is a superset of is_base_feed. -/
theorem is_base_feed_without_is_feed :
    is_base_feed dirDataVerTree ["feed1"] = .ok true ∧
    is_feed dirDataVerTree ["feed1"] = .ok false :=
  ⟨rfl, rfl⟩

/-- C7 counterexample: an empty-string explicit data version is not rejected;
it triggers timestamp derivation and the call succeeds. -/
theorem add_empty_dataver_not_rejected :
    (add_feed_data_ver emptyRepoTree2 ["src"] "r" "news" "0001" SubfeedArg.noArg
      (some "") false "20250101000000").2 = .ok "20250101000000" := rfl

/-- C7 amended: a nonempty explicit data version that is not entirely numeric
is rejected by the assertion with the filesystem untouched; the empty string
instead falls back to timestamp derivation. -/
theorem add_nonnumeric_dataver_rejected (fs : Entry) (fn : List String)
    (r n v : String) (sub : SubfeedArg) (s : String) (mv : Bool) (now : String)
    (hne : s ≠ "") (hnd : pyIsdigit s = false) :
    add_feed_data_ver fs fn r n v sub (some s) mv now =
      (fs, .error "AssertionError: dataver") := by
  simp [add_feed_data_ver, hne, hnd]

/-- C7 amended witness at a concrete non-numeric version string. -/
theorem add_nonnumeric_dataver_rejected_witness :
    "v1" ≠ "" ∧ pyIsdigit "v1" = false ∧
    add_feed_data_ver emptyRepoTree2 ["src"] "r" "news" "0001" SubfeedArg.noArg
      (some "v1") false "20250101000000" =
      (emptyRepoTree2, .error "AssertionError: dataver") :=
  ⟨by decide, by decide,
    add_nonnumeric_dataver_rejected emptyRepoTree2 ["src"] "r" "news" "0001"
      SubfeedArg.noArg "v1" false "20250101000000" (by decide) (by decide)⟩

/-- C8: list_feed_subfeeds unpacks a bare string argument into its individual
characters, so the single-segment string form diverges from the one-element
list form on a concrete feed with subfeed `us`. -/
theorem list_feed_subfeeds_string_form_diverges :
    list_feed_subfeeds subfeedTree "r" "f" "0001" (SubfeedArg.segs ["us"]) = [["us"]] ∧
    list_feed_subfeeds subfeedTree "r" "f" "0001" (SubfeedArg.str "us") = [] :=
  ⟨by decide, by decide⟩

/-- C9: on a path that is not a directory (missing or a plain file), both
predicates return false instead of raising. -/
theorem feed_predicates_false_on_nondirectory (fs : Entry) (p : List String)
    (h : isDirAt fs p = false) :
    is_base_feed fs p = .ok false ∧ is_feed fs p = .ok false := by
  constructor
  · simp [is_base_feed, h]
  · simp [is_feed, h]

/-- C9 witness: a nonexistent path in a concrete tree. -/
theorem feed_predicates_false_on_nondirectory_witness :
    isDirAt dirDataVerTree ["nothere"] = false ∧
    is_base_feed dirDataVerTree ["nothere"] = .ok false ∧
    is_feed dirDataVerTree ["nothere"] = .ok false := by
  refine ⟨by decide, ?_, ?_⟩
  · exact (feed_predicates_false_on_nondirectory dirDataVerTree ["nothere"] (by decide)).1
  · exact (feed_predicates_false_on_nondirectory dirDataVerTree ["nothere"] (by decide)).2

/-- C2: once a data version has been committed at a destination, a second
add_feed_data_ver with the same explicit version string and destination stops
at the destination-collision assertion and returns with the filesystem exactly
as the first call left it. -/
theorem add_feed_data_ver_collision_rejected (fs g : Entry) (fn1 fn2 : List String)
    (r n v : String) (sub : SubfeedArg) (dvArg : Option String) (mv1 mv2 : Bool)
    (now1 now2 dv : String)
    (hwf : wfEntry fs = true)
    (h1 : add_feed_data_ver fs fn1 r n v sub dvArg mv1 now1 = (g, .ok dv))
    (hsrc : (isDirAt g fn2 || isFileAt g fn2) = true) :
    add_feed_data_ver g fn2 r n v sub (some dv) mv2 now2 =
      (g, .error "AssertionError: permdest") := by
  obtain ⟨hd, hdir, htmp, e, hperm, _⟩ :=
    add_ok_spec fs g fn1 r n v sub dvArg mv1 now1 dv hwf h1
  have hne : dv ≠ "" := by
    intro hdv
    rw [hdv] at hd
    exact absurd hd (by decide)
  have hmk : makedirs g (versionsDirPath r n v sub) = some g :=
    makedirs_id_of_isDir g _ hdir
  have htmpF : pathExists g (versionsDirPath r n v sub ++ ["." ++ dv]) = false :=
    (pathExists_false_iff _ _).mpr htmp
  have hpermT : pathExists g (versionsDirPath r n v sub ++ [dv]) = true := by
    simp [pathExists, hperm]
  simp [add_feed_data_ver, hne, hd, hmk, hsrc, htmpF, hpermT]

/-- C2 witness: committing version 20200101000000 into a fresh repository and
then re-adding the same version fails and leaves the state unchanged. -/
theorem add_feed_data_ver_collision_rejected_witness :
    wfEntry emptyRepoTree = true ∧
    add_feed_data_ver
      (add_feed_data_ver emptyRepoTree ["src"] "r" "news" "0001" SubfeedArg.noArg
        (some "20200101000000") false "20250101000000").1
      ["src"] "r" "news" "0001" SubfeedArg.noArg (some "20200101000000") false
      "20250102000000" =
      ((add_feed_data_ver emptyRepoTree ["src"] "r" "news" "0001" SubfeedArg.noArg
        (some "20200101000000") false "20250101000000").1,
       .error "AssertionError: permdest") :=
  ⟨by decide,
    add_feed_data_ver_collision_rejected emptyRepoTree _ ["src"] ["src"] "r" "news"
      "0001" SubfeedArg.noArg (some "20200101000000") false false "20250101000000"
      "20250102000000" "20200101000000" (by decide) rfl (by decide)⟩

/-- C3: committing a source file as an explicit data version and reading it
back with the same coordinates yields exactly the source contents. -/
theorem add_then_get_feed_data_roundtrip (fs fs2 : Entry) (fn : List String)
    (r n v : String) (sub : SubfeedArg) (mv : Bool) (now dv c : String)
    (hwf : wfEntry fs = true)
    (hfile : lookup fs fn = some (.file c))
    (h : add_feed_data_ver fs fn r n v sub (some dv) mv now = (fs2, .ok dv)) :
    get_feed_data fs2 r n v dv sub none = .ok c := by
  obtain ⟨hd, hdir, htmp, e, hperm, hid⟩ :=
    add_ok_spec fs fs2 fn r n v sub (some dv) mv now dv hwf h
  have he : e = .file c := hid c hfile
  subst he
  have hpath : [r, n, v] ++ normSubfeeds sub ++ ["versions", dv] ++
      ([] : List String) = versionsDirPath r n v sub ++ [dv] := by
    simp [versionsDirPath]
  simp only [get_feed_data, hpath, openAt, hperm]

/-- C3 witness: the committed file with contents hello reads back as hello. -/
theorem add_then_get_feed_data_roundtrip_witness :
    wfEntry emptyRepoTree = true ∧
    lookup emptyRepoTree ["src"] = some (.file "hello") ∧
    get_feed_data
      (add_feed_data_ver emptyRepoTree ["src"] "r" "news" "0001" SubfeedArg.noArg
        (some "20200101000000") false "20250101000000").1
      "r" "news" "0001" "20200101000000" SubfeedArg.noArg none = .ok "hello" :=
  ⟨by decide, rfl,
    add_then_get_feed_data_roundtrip emptyRepoTree _ ["src"] "r" "news" "0001"
      SubfeedArg.noArg false "20250101000000" "20200101000000" "hello" (by decide)
      rfl rfl⟩

/-- C10: when the feed-version directory itself has an immediate child
directory named versions, the walk in list_feed_subfeeds reports the empty
subfeed path. -/
theorem list_feed_subfeeds_includes_empty_path (fs : Entry) (r n v : String)
    (cs : List (String × Entry))
    (hver : lookup fs [r, n, v, "versions"] = some (.dir cs)) :
    [] ∈ list_feed_subfeeds fs r n v SubfeedArg.noArg := by
  have hsplit : lookup fs ([r, n, v] ++ ["versions"]) = some (.dir cs) := hver
  rw [lookup_append] at hsplit
  cases hp : lookup fs [r, n, v] with
  | none => rw [hp] at hsplit; simp at hsplit
  | some e =>
    rw [hp] at hsplit
    cases e with
    | file c => simp [lookup] at hsplit
    | dir cs0 =>
      replace hsplit : findChild cs0 "versions" = some (.dir cs) := by
        rw [← lookup_single cs0 "versions"]
        exact hsplit
      have hdir : isDirAt fs [r, n, v] = true := by simp [isDirAt, hp]
      simp only [list_feed_subfeeds, splatSubfeeds, List.append_nil, hdir,
        Bool.not_true, Bool.false_eq_true, if_false]
      refine List.mem_filter.mpr ⟨?_, by decide⟩
      rw [List.mem_insertionSort]
      have hw : osWalk fs [r, n, v] =
          ([r, n, v], dirNamesOf cs0, fileNamesOf cs0) :: walkChildren cs0 [r, n, v] := by
        simp [osWalk, hp, walkEntry]
      rw [hw]
      have hmem : ("versions", Entry.dir cs) ∈ cs0 := findChild_mem cs0 "versions" _ hsplit
      have hdn : "versions" ∈ dirNamesOf cs0 := by
        refine List.mem_map_of_mem Prod.fst (List.mem_filter.mpr ⟨hmem, rfl⟩)
      have hcont : (dirNamesOf cs0).contains "versions" = true := List.elem_iff.mpr hdn
      have hhead : ([r, n, v], dirNamesOf cs0, fileNamesOf cs0) ∈
          List.filter (fun rdf => rdf.2.1.contains "versions")
            (([r, n, v], dirNamesOf cs0, fileNamesOf cs0) :: walkChildren cs0 [r, n, v]) :=
        List.mem_filter.mpr ⟨List.mem_cons_self _ _, hcont⟩
      exact List.mem_map_of_mem (fun rdf => rdf.1.drop 3) hhead

/-- C10 witness: the empty subfeed path is listed for `directVersionsTree`. -/
theorem list_feed_subfeeds_includes_empty_path_witness :
    lookup directVersionsTree ["r", "f", "0001", "versions"] =
      some (.dir [("1", .file "a")]) ∧
    [] ∈ list_feed_subfeeds directVersionsTree "r" "f" "0001" SubfeedArg.noArg :=
  ⟨rfl, list_feed_subfeeds_includes_empty_path directVersionsTree "r" "f" "0001"
    [("1", .file "a")] rfl⟩

theorem listdirE_ok (fs : Entry) (p : List String) (h : isDirAt fs p = true) :
    listdirE fs p = .ok (listdirNames fs p) := by
  cases hl : lookup fs p with
  | none => simp [isDirAt, hl] at h
  | some e =>
    cases e with
    | file c => simp [isDirAt, hl] at h
    | dir cs => simp [listdirE, listdirNames, hl]

theorem listdirNames_nil_of_not_dir (fs : Entry) (p : List String)
    (h : isDirAt fs p = false) : listdirNames fs p = [] := by
  cases hl : lookup fs p with
  | none => simp [listdirNames, hl]
  | some e =>
    cases e with
    | file c => simp [listdirNames, hl]
    | dir cs => simp [isDirAt, hl] at h

theorem descSort_spec (xs : List String) (hnd : xs.Nodup) :
    (sortAsc xs).reverse.Perm xs ∧ (sortAsc xs).reverse.Pairwise strGtP := by
  have hperm : (sortAsc xs).reverse.Perm xs :=
    ((sortAsc xs).reverse_perm).trans (sortAsc_perm xs)
  refine ⟨hperm, ?_⟩
  have hge : (sortAsc xs).reverse.Pairwise (fun a b => strLeP b a) :=
    List.pairwise_reverse.mpr (sortAsc_pairwise xs)
  have hnodup : (sortAsc xs).reverse.Nodup := List.Perm.nodup hperm.symm hnd
  exact (hge.and hnodup).imp (fun h => ⟨h.1, h.2⟩)

/-- C6: for an existing feed directory, list_feed_vers succeeds and returns
exactly the 4-character all-numeric immediate subdirectory names in strictly
descending lexical order; list_feed_data_vers likewise returns the all-numeric
entries of the versions directory in strictly descending lexical order. -/
theorem listing_functions_descending (fs : Entry) (r n v : String) (sub : SubfeedArg)
    (hdir : isDirAt fs [r, n] = true)
    (hnd1 : (listdirNames fs [r, n]).Nodup)
    (hnd2 : (listdirNames fs (versionsDirPath r n v sub)).Nodup) :
    (∃ l, list_feed_vers fs r n = .ok l ∧
      l.Perm ((listdirNames fs [r, n]).filter
        (fun nm => isDirAt fs ([r, n] ++ [nm]) && (nm.length == 4 && pyIsdigit nm))) ∧
      l.Pairwise strGtP) ∧
    ((list_feed_data_vers fs r n v sub).Perm
        ((listdirNames fs (versionsDirPath r n v sub)).filter pyIsdigit) ∧
      (list_feed_data_vers fs r n v sub).Pairwise strGtP) := by
  constructor
  · have hld := listdirE_ok fs [r, n] hdir
    have hvers : list_feed_vers fs r n = .ok
        ((sortAsc (((listdirNames fs [r, n]).filter
          (fun nm => nm.length == 4 && pyIsdigit nm)).filter
          (fun nm => isDirAt fs ([r, n] ++ [nm])))).reverse) := by
      simp [list_feed_vers, hld]
    rw [List.filter_filter] at hvers
    refine ⟨_, hvers, ?_, ?_⟩
    · exact (descSort_spec _ (List.Nodup.filter _ hnd1)).1
    · exact (descSort_spec _ (List.Nodup.filter _ hnd1)).2
  · by_cases hd2 : isDirAt fs (versionsDirPath r n v sub) = true
    · have heq : list_feed_data_vers fs r n v sub =
          (sortAsc ((listdirNames fs (versionsDirPath r n v sub)).filter
            pyIsdigit)).reverse := by
        simp [list_feed_data_vers, hd2]
      rw [heq]
      exact descSort_spec _ (List.Nodup.filter _ hnd2)
    · rw [Bool.not_eq_true] at hd2
      have heq : list_feed_data_vers fs r n v sub = [] := by
        simp [list_feed_data_vers, hd2]
      rw [heq, listdirNames_nil_of_not_dir fs _ hd2]
      exact ⟨List.Perm.refl _, List.Pairwise.nil⟩

/-- C6 witness: hypotheses hold on the concrete tree and the conclusion
follows by the theorem. -/
theorem listing_functions_descending_witness :
    isDirAt orderedListingTree ["r", "f"] = true ∧
    (listdirNames orderedListingTree ["r", "f"]).Nodup ∧
    (listdirNames orderedListingTree
      (versionsDirPath "r" "f" "0001" SubfeedArg.noArg)).Nodup ∧
    ((∃ l, list_feed_vers orderedListingTree "r" "f" = .ok l ∧
      l.Perm ((listdirNames orderedListingTree ["r", "f"]).filter
        (fun nm => isDirAt orderedListingTree (["r", "f"] ++ [nm]) &&
          (nm.length == 4 && pyIsdigit nm))) ∧
      l.Pairwise strGtP) ∧
    ((list_feed_data_vers orderedListingTree "r" "f" "0001" SubfeedArg.noArg).Perm
        ((listdirNames orderedListingTree
          (versionsDirPath "r" "f" "0001" SubfeedArg.noArg)).filter pyIsdigit) ∧
      (list_feed_data_vers orderedListingTree "r" "f" "0001"
        SubfeedArg.noArg).Pairwise strGtP)) :=
  ⟨by decide, by decide, by decide,
    listing_functions_descending orderedListingTree "r" "f" "0001" SubfeedArg.noArg
      (by decide) (by decide) (by decide)⟩

theorem add_ok_mid (fs fs' : Entry) (fn : List String) (r n v : String)
    (sub : SubfeedArg) (dvArg : Option String) (mv : Bool) (now dv : String)
    (hwf : wfEntry fs = true)
    (h : add_feed_data_ver fs fn r n v sub dvArg mv now = (fs', .ok dv)) :
    ∃ fsMid,
      pathExists fsMid (versionsDirPath r n v sub ++ ["." ++ dv]) = true ∧
      lookup fsMid (versionsDirPath r n v sub ++ [dv]) = none ∧
      renameIn fsMid (versionsDirPath r n v sub) ("." ++ dv) dv = some fs' := by
  obtain ⟨hd, fs1, fs2, hm, hsrc, ht, hp, hmat, hren⟩ :=
    add_ok_inv fs fs' fn r n v sub dvArg mv now dv h
  have hwf1 : wfEntry fs1 = true := makedirs_wf fs fs1 _ hwf hm
  have ht2 : lookup fs1 (versionsDirPath r n v sub ++ ["." ++ dv]) = none :=
    (pathExists_false_iff _ _).mp ht
  have hp2 : lookup fs1 (versionsDirPath r n v sub ++ [dv]) = none :=
    (pathExists_false_iff _ _).mp hp
  obtain ⟨e, he, hcase⟩ := materialize_inv fs1 fs2 fn _ _ mv hmat
  have hcommon : ∃ fsb, insertAt fsb (versionsDirPath r n v sub) ("." ++ dv) e = some fs2 ∧
      lookup fsb (versionsDirPath r n v sub ++ ["." ++ dv]) = none ∧
      lookup fsb (versionsDirPath r n v sub ++ [dv]) = none := by
    rcases hcase with ⟨_, fsb, hrm, hins⟩ | ⟨_, hins⟩
    · exact ⟨fsb, hins, lookup_none_of_removeAt fs1 fsb fn hwf1 hrm _ ht2,
        lookup_none_of_removeAt fs1 fsb fn hwf1 hrm _ hp2⟩
    · exact ⟨fs1, hins, ht2, hp2⟩
  obtain ⟨fsb, hins, htb, hpb⟩ := hcommon
  obtain ⟨csb, hcsb⟩ := insertAt_some_dir fsb fs2 _ _ e hins
  have h2 : lookup fs2 (versionsDirPath r n v sub) =
      some (.dir (csb ++ [("." ++ dv, e)])) :=
    insertAt_dir fsb fs2 _ _ e csb hins hcsb
  have hfctmp : findChild csb ("." ++ dv) = none := by
    have hx := lookup_append_single fsb _ csb ("." ++ dv) hcsb
    rw [htb] at hx
    exact hx.symm
  have hfcdv : findChild csb dv = none := by
    have hx := lookup_append_single fsb _ csb dv hcsb
    rw [hpb] at hx
    exact hx.symm
  have hlk2 : lookup fs2 (versionsDirPath r n v sub ++ ["." ++ dv]) = some e := by
    rw [lookup_append_single fs2 _ _ ("." ++ dv) h2, findChild_append, hfctmp]
    simp [findChild]
  refine ⟨fs2, by simp [pathExists, hlk2], ?_, hren⟩
  rw [lookup_append_single fs2 _ _ dv h2, findChild_append, hfcdv]
  simp [findChild, dot_append_ne dv]

theorem add_error_preserves (fs fs' : Entry) (fn : List String) (r n v : String)
    (sub : SubfeedArg) (dvArg : Option String) (mv : Bool) (now msg : String)
    (hwf : wfEntry fs = true)
    (h : add_feed_data_ver fs fn r n v sub dvArg mv now = (fs', .error msg))
    (w : String) :
    lookup fs' (versionsDirPath r n v sub ++ [w]) =
      lookup fs (versionsDirPath r n v sub ++ [w]) := by
  simp only [add_feed_data_ver] at h
  generalize hDV : (match dvArg with
    | none => now
    | some s => if s = "" then now else s) = dv0 at h
  split at h
  · simp only [Prod.mk.injEq] at h
    rw [← h.1]
  · rename_i hd
    split at h
    · simp only [Prod.mk.injEq] at h
      rw [← h.1]
    · rename_i fs1 hm
      have hpres : lookup fs1 (versionsDirPath r n v sub ++ [w]) =
          lookup fs (versionsDirPath r n v sub ++ [w]) :=
        makedirs_lookup_deeper fs fs1 _ hm w []
      split at h
      · simp only [Prod.mk.injEq] at h
        rw [← h.1]
        exact hpres
      · rename_i hsrc
        split at h
        · simp only [Prod.mk.injEq] at h
          rw [← h.1]
          exact hpres
        · rename_i ht
          rw [Bool.not_eq_true] at ht
          split at h
          · simp only [Prod.mk.injEq] at h
            rw [← h.1]
            exact hpres
          · rename_i hp
            rw [Bool.not_eq_true] at hp
            split at h
            · simp only [Prod.mk.injEq] at h
              rw [← h.1]
              exact hpres
            · rename_i fs2 hmat
              split at h
              · rename_i hren
                exfalso
                have hwf1 : wfEntry fs1 = true := makedirs_wf fs fs1 _ hwf hm
                have ht2 : lookup fs1 (versionsDirPath r n v sub ++ ["." ++ dv0]) = none :=
                  (pathExists_false_iff _ _).mp ht
                obtain ⟨e, he, hcase⟩ := materialize_inv fs1 fs2 fn _ _ mv hmat
                have hcommon : ∃ fsb,
                    insertAt fsb (versionsDirPath r n v sub) ("." ++ dv0) e = some fs2 ∧
                    lookup fsb (versionsDirPath r n v sub ++ ["." ++ dv0]) = none := by
                  rcases hcase with ⟨_, fsb, hrm, hins⟩ | ⟨_, hins⟩
                  · exact ⟨fsb, hins, lookup_none_of_removeAt fs1 fsb fn hwf1 hrm _ ht2⟩
                  · exact ⟨fs1, hins, ht2⟩
                obtain ⟨fsb, hins, htb⟩ := hcommon
                obtain ⟨csb, hcsb⟩ := insertAt_some_dir fsb fs2 _ _ e hins
                have h2 : lookup fs2 (versionsDirPath r n v sub) =
                    some (.dir (csb ++ [("." ++ dv0, e)])) :=
                  insertAt_dir fsb fs2 _ _ e csb hins hcsb
                have hfctmp : findChild csb ("." ++ dv0) = none := by
                  have hx := lookup_append_single fsb _ csb ("." ++ dv0) hcsb
                  rw [htb] at hx
                  exact hx.symm
                have hlk2 : lookup fs2 (versionsDirPath r n v sub ++ ["." ++ dv0]) =
                    some e := by
                  rw [lookup_append_single fs2 _ _ ("." ++ dv0) h2, findChild_append, hfctmp]
                  simp [findChild]
                obtain ⟨fs2b, hrm2⟩ := removeAt_isSome fs2 _ ("." ++ dv0) e hlk2
                have h2b : lookup fs2b (versionsDirPath r n v sub) = some (.dir csb) := by
                  have hx := removeAt_dir fs2 fs2b _ ("." ++ dv0) _ hrm2 h2
                  rw [removeChild_append_of_none csb ("." ++ dv0) e hfctmp] at hx
                  exact hx
                obtain ⟨fsX, hinsX⟩ := insertAt_isSome_of_isDir fs2b
                  (versionsDirPath r n v sub) dv0 e (by simp [isDirAt, h2b])
                simp only [renameIn, hlk2] at hren
                split at hren
                · rename_i hrmN
                  rw [hrmN] at hrm2
                  simp at hrm2
                · rename_i fs2c hrm2c
                  rw [hrm2c] at hrm2
                  simp at hrm2
                  rw [← hrm2] at hinsX
                  rw [hinsX] at hren
                  simp at hren
              · simp at h

/-- C1: a successful add_feed_data_ver first materializes the new data version
under the dot-prefixed temporary name inside the versions directory, in a state
where the numeric name does not yet exist, and the single final rename of that
temporary entry produces the returned state, in which the numeric name exists;
a failing call leaves every entry of the versions directory exactly as it was
before the call. -/
theorem add_feed_data_ver_atomic (fs fs' : Entry) (fn : List String) (r n v : String)
    (sub : SubfeedArg) (dvArg : Option String) (mv : Bool) (now : String)
    (res : Except String String)
    (hwf : wfEntry fs = true)
    (h : add_feed_data_ver fs fn r n v sub dvArg mv now = (fs', res)) :
    (∀ dv, res = .ok dv →
      ∃ fsMid,
        pathExists fsMid (versionsDirPath r n v sub ++ ["." ++ dv]) = true ∧
        lookup fsMid (versionsDirPath r n v sub ++ [dv]) = none ∧
        renameIn fsMid (versionsDirPath r n v sub) ("." ++ dv) dv = some fs' ∧
        (lookup fs' (versionsDirPath r n v sub ++ [dv])).isSome = true) ∧
    (∀ msg, res = .error msg →
      ∀ w, lookup fs' (versionsDirPath r n v sub ++ [w]) =
        lookup fs (versionsDirPath r n v sub ++ [w])) := by
  constructor
  · intro dv hres
    rw [hres] at h
    obtain ⟨fsMid, h1, h2, h3⟩ :=
      add_ok_mid fs fs' fn r n v sub dvArg mv now dv hwf h
    obtain ⟨_, _, _, e, hperm, _⟩ :=
      add_ok_spec fs fs' fn r n v sub dvArg mv now dv hwf h
    exact ⟨fsMid, h1, h2, h3, by simp [hperm]⟩
  · intro msg hres w
    rw [hres] at h
    exact add_error_preserves fs fs' fn r n v sub dvArg mv now msg hwf h w

/-- C1 witness: the success branch of the atomicity theorem at a concrete
commit. -/
theorem add_feed_data_ver_atomic_witness :
    wfEntry atomicWitnessTree = true ∧
    (∃ fsMid,
      pathExists fsMid (versionsDirPath "r" "news" "0001" SubfeedArg.noArg ++
        ["." ++ "20200101000000"]) = true ∧
      lookup fsMid (versionsDirPath "r" "news" "0001" SubfeedArg.noArg ++
        ["20200101000000"]) = none ∧
      renameIn fsMid (versionsDirPath "r" "news" "0001" SubfeedArg.noArg)
        ("." ++ "20200101000000") "20200101000000" =
        some (add_feed_data_ver atomicWitnessTree ["src"] "r" "news" "0001"
          SubfeedArg.noArg (some "20200101000000") false "20250101000000").1 ∧
      (lookup (add_feed_data_ver atomicWitnessTree ["src"] "r" "news" "0001"
          SubfeedArg.noArg (some "20200101000000") false "20250101000000").1
        (versionsDirPath "r" "news" "0001" SubfeedArg.noArg ++
          ["20200101000000"])).isSome = true) :=
  ⟨by decide,
    (add_feed_data_ver_atomic atomicWitnessTree
      (add_feed_data_ver atomicWitnessTree ["src"] "r" "news" "0001"
        SubfeedArg.noArg (some "20200101000000") false "20250101000000").1
      ["src"] "r" "news" "0001" SubfeedArg.noArg (some "20200101000000") false
      "20250101000000"
      (add_feed_data_ver atomicWitnessTree ["src"] "r" "news" "0001"
        SubfeedArg.noArg (some "20200101000000") false "20250101000000").2
      (by decide) rfl).1 "20200101000000" rfl⟩

end Feeds
